import Mathlib

/-!
Verification of the rcpp-gallery multivariate-normal density evaluators
(`dmvnrm_arma`, `dmvnrm_arma_mc`, `dmvnorm_arma`, `Mahalanobis`) and the
RcppParallel vector-sum worker (`Sum`, `parallelVectorSum`, `vectorSum`)
against their natural-language specification.

Machine doubles are modelled as real numbers; the per-row OpenMP loop of
the `_mc` evaluator is modelled by an explicit chunk schedule writing into
the output vector; `omp_set_num_threads` is modelled by threading the
process-wide thread-count setting through the call; the Armadillo calls
`chol` (which throws on failure) and `eig_sym` are modelled by their
documented contracts (an `Option`-valued factorizer, and an eigenvalue
vector constrained by an orthogonal diagonalization hypothesis).
-/

open Matrix

noncomputable section

/-- Positive definiteness of a real matrix: symmetric with strictly positive
quadratic form on nonzero vectors (the spec's glossary definition). -/
def IsPosDef {k : ℕ} (S : Matrix (Fin k) (Fin k) ℝ) : Prop :=
  S.IsSymm ∧ ∀ v : Fin k → ℝ, v ≠ 0 → 0 < v ⬝ᵥ (S *ᵥ v)

/-- What `arma::chol(S)` returns on success: an upper-triangular matrix `U`
with strictly positive diagonal such that `S = Uᵀ * U`. -/
def IsCholFactor {k : ℕ} (U S : Matrix (Fin k) (Fin k) ℝ) : Prop :=
  S = Uᵀ * U ∧ U.BlockTriangular id ∧ ∀ i, 0 < U i i

/-- Model of `arma::chol`: produces an upper-triangular Cholesky factor when
one exists, and fails (the C++ code throws `std::runtime_error`, modelled as
`none`) when the decomposition does not exist. -/
def arma_chol {k : ℕ} (S : Matrix (Fin k) (Fin k) ℝ) : Option (Matrix (Fin k) (Fin k) ℝ) :=
  letI := Classical.propDecidable (∃ U, IsCholFactor U S)
  if h : ∃ U, IsCholFactor U S then some h.choose else none

/-- Model of the source line `double constants = -(xdim/2) * log(2 * M_PI);`
where `xdim` is a C++ `int`, so `xdim/2` is integer (truncating) division. -/
def dmvnrm_constants (xdim : ℕ) : ℝ :=
  -(((xdim / 2 : ℕ) : ℝ)) * Real.log (2 * Real.pi)

/-- The loop body shared verbatim by `dmvnrm_arma` and `dmvnrm_arma_mc`, given
the Cholesky factor `R` of `sigma`: `rooti = trans(inv(trimatu(chol(sigma))))`,
`rootisum = sum(log(rooti.diag()))`, and for row `i`,
`z = rooti * (x.row(i) - mean)ᵀ` and the row value is
`constants - 0.5 * sum(z % z) + rootisum`. -/
def dmvnrm_body {n k : ℕ} (x : Matrix (Fin n) (Fin k) ℝ) (mean : Fin k → ℝ)
    (R : Matrix (Fin k) (Fin k) ℝ) : Fin n → ℝ :=
  let rooti : Matrix (Fin k) (Fin k) ℝ := (R⁻¹)ᵀ
  let rootisum : ℝ := ∑ i, Real.log (rooti i i)
  let constants : ℝ := dmvnrm_constants k
  fun i =>
    let z : Fin k → ℝ := rooti *ᵥ fun j => x i j - mean j
    constants - 0.5 * (∑ j, z j * z j) + rootisum

/-- Model of `dmvnrm_arma(x, mean, sigma, logd)`: Cholesky-based multivariate
normal density evaluator.  The serial `for` loop fills `out(i)` with the row
body for every row; if `logd` is false the whole vector is exponentiated as a
final pass.  A failed Cholesky factorization aborts the call with no result
vector (`none`). -/
def dmvnrm_arma {n k : ℕ} (x : Matrix (Fin n) (Fin k) ℝ) (mean : Fin k → ℝ)
    (sigma : Matrix (Fin k) (Fin k) ℝ) (logd : Bool) : Option (Fin n → ℝ) :=
  (arma_chol sigma).map fun R =>
    let out : Fin n → ℝ := fun i => dmvnrm_body x mean R i
    if logd = false then (fun i => Real.exp (out i)) else out

/-- Model of `dmvnrm_arma_mc(x, mean, sigma, logd, cores)`.  The OpenMP
`parallel for` is modelled by an explicit schedule: a list of chunks of row
indices, each chunk writing its rows' values into the output vector (which
starts as the arbitrary contents `out0` of the uninitialized `arma::vec`).
`omp_set_num_threads(cores)` is modelled by state passing: the call receives
the current process-wide thread-count setting and returns the setting it
leaves behind, namely `cores`.  The worker count is not validated. -/
def dmvnrm_arma_mc {n k : ℕ} (x : Matrix (Fin n) (Fin k) ℝ) (mean : Fin k → ℝ)
    (sigma : Matrix (Fin k) (Fin k) ℝ) (logd : Bool) (cores : ℤ)
    (chunks : List (List (Fin n))) (out0 : Fin n → ℝ) (_ompThreads : ℤ) :
    Option (Fin n → ℝ) × ℤ :=
  ((arma_chol sigma).map fun R =>
    let out : Fin n → ℝ :=
      chunks.foldl
        (fun acc c => c.foldl (fun a i => Function.update a i (dmvnrm_body x mean R i)) acc)
        out0
    if logd = false then (fun i => Real.exp (out i)) else out,
   cores)

/-- Model of `Mahalanobis(x, center, cov)`: center every row, then take row
sums of `(x_cen * cov.i()) % x_cen`. -/
def Mahalanobis {n k : ℕ} (x : Matrix (Fin n) (Fin k) ℝ) (center : Fin k → ℝ)
    (cov : Matrix (Fin k) (Fin k) ℝ) : Fin n → ℝ :=
  let x_cen : Matrix (Fin n) (Fin k) ℝ := fun i j => x i j - center j
  fun i => ∑ j, (x_cen * cov⁻¹) i j * x_cen i j

/-- The contract of `arma::eig_sym(S)` for a symmetric matrix: the returned
vector `eigs` diagonalizes `S` via an orthogonal matrix. -/
def IsEigSym {k : ℕ} (eigs : Fin k → ℝ) (S : Matrix (Fin k) (Fin k) ℝ) : Prop :=
  ∃ Q : Matrix (Fin k) (Fin k) ℝ, Qᵀ * Q = 1 ∧ S = Q * Matrix.diagonal eigs * Qᵀ

/-- Model of `dmvnorm_arma(x, mean, sigma, log)`: Mahalanobis-inverse form.
The vector `eigs` stands for the result of `arma::eig_sym(sigma)` (the
theorems about this function constrain it by `IsEigSym`).
`logdet = sum(log(eig_sym(sigma)))` and
`logretval = -((xdim * log2pi + logdet + distval) / 2)`, with real (not
integer) division by 2. -/
def dmvnorm_arma {n k : ℕ} (x : Matrix (Fin n) (Fin k) ℝ) (mean : Fin k → ℝ)
    (sigma : Matrix (Fin k) (Fin k) ℝ) (eigs : Fin k → ℝ) (lg : Bool) : Fin n → ℝ :=
  let distval : Fin n → ℝ := Mahalanobis x mean sigma
  let logdet : ℝ := ∑ i, Real.log (eigs i)
  let log2pi : ℝ := Real.log (2 * Real.pi)
  let logretval : Fin n → ℝ := fun i => -(((k : ℝ) * log2pi + logdet + distval i) / 2)
  if lg then logretval else fun i => Real.exp (logretval i)

end

namespace VectorSum

/-- Model of `std::accumulate(input.begin() + b, input.begin() + e, 0.0)`:
left fold of addition over the elements of `input` with indices in `[b, e)`. -/
noncomputable def segSum (input : List ℝ) (b e : ℕ) : ℝ :=
  ((input.drop b).take (e - b)).foldl (· + ·) 0

/-- Model of the serial `vectorSum`: `std::accumulate(x.begin(), x.end(), 0.0)`. -/
noncomputable def vectorSum (x : List ℝ) : ℝ :=
  x.foldl (· + ·) 0

/-- The RcppParallel `Sum` worker: a read-only view of the input vector and a
private accumulator `value`. -/
structure Sum where
  input : List ℝ
  value : ℝ

/-- Standard constructor `Sum(const NumericVector input)`: accumulator starts at 0. -/
noncomputable def Sum.init (input : List ℝ) : Sum := ⟨input, 0⟩

/-- Splitting constructor `Sum(const Sum& sum, Split)`: shares the input view,
accumulator starts at 0. -/
noncomputable def Sum.split (s : Sum) : Sum := ⟨s.input, 0⟩

/-- Model of `operator()(begin, end)`:
`value += std::accumulate(input.begin() + begin, input.begin() + end, 0.0)`. -/
noncomputable def Sum.run (s : Sum) (b e : ℕ) : Sum :=
  { s with value := s.value + segSum s.input b e }

/-- Model of `join(const Sum& rhs)`: `value += rhs.value`. -/
noncomputable def Sum.join (s rhs : Sum) : Sum :=
  { s with value := s.value + rhs.value }

/-- A fork-join execution shape for `parallelReduce`: leaves are single
`operator()` calls over index ranges, nodes are split points. -/
inductive WorkTree where
  | leaf (b e : ℕ)
  | node (l r : WorkTree)

/-- The ranges processed at the leaves of a work tree, left to right. -/
def WorkTree.ranges : WorkTree → List (ℕ × ℕ)
  | .leaf b e => [(b, e)]
  | .node l r => l.ranges ++ r.ranges

/-- Decides that a list of ranges tiles the interval `[b, e)` with contiguous
ranges in order, exactly how `parallelReduce` splits `[b, e)`. -/
def tilesB : List (ℕ × ℕ) → ℕ → ℕ → Bool
  | [], b, e => b == e
  | p :: ps, b, e => (p.1 == b) && (p.1 ≤ p.2) && tilesB ps p.2 e

/-- Run of a `parallelReduce` execution: a leaf runs `operator()` on the
current worker instance; at a node the right branch runs on a split-constructed
sibling which is then joined into the left result. -/
noncomputable def reduceTree (s : Sum) : WorkTree → Sum
  | .leaf b e => s.run b e
  | .node l r => (reduceTree s l).join (reduceTree s.split r)

/-- Model of `parallelVectorSum(x)` executed with schedule `t`: initialize a
`Sum` worker on `x`, run `parallelReduce(0, x.length(), sum)`, return
`sum.value`.  Only the root accumulator is returned. -/
noncomputable def parallelVectorSum (x : List ℝ) (t : WorkTree) : ℝ :=
  (reduceTree (Sum.init x) t).value

/-- Left folds of addition pull the initial accumulator out front. -/
lemma foldl_add_shift (l : List ℝ) (a : ℝ) :
    l.foldl (· + ·) a = a + l.foldl (· + ·) 0 := by
  induction l generalizing a with
  | nil => simp
  | cons h t ih =>
    simp only [List.foldl_cons]
    rw [ih (a + h), ih (0 + h)]
    ring

/-- Two adjacent segment sums concatenate. -/
lemma segSum_split (x : List ℝ) {b m e : ℕ} (hbm : b ≤ m) (hme : m ≤ e) :
    segSum x b m + segSum x m e = segSum x b e := by
  unfold segSum
  have hsplit : e - b = (m - b) + (e - m) := by omega
  have hdrop : (x.drop b).drop (m - b) = x.drop m := by
    rw [List.drop_drop]
    congr 1
    omega
  rw [hsplit, List.take_add, List.foldl_append, hdrop,
    foldl_add_shift _ (((x.drop b).take (m - b)).foldl (· + ·) 0)]

/-- A tiling of `[b, e)` forces `b ≤ e`. -/
lemma tilesB_le {rs : List (ℕ × ℕ)} {b e : ℕ} (h : tilesB rs b e = true) : b ≤ e := by
  induction rs generalizing b with
  | nil =>
    simp only [tilesB, beq_iff_eq] at h
    omega
  | cons p ps ih =>
    simp only [tilesB, Bool.and_eq_true, beq_iff_eq, decide_eq_true_eq] at h
    obtain ⟨⟨hb, hle⟩, ht⟩ := h
    have := ih ht
    omega

/-- Summing the segment sums of a tiling of `[b, e)` gives the segment sum of
the whole interval. -/
lemma tilesB_segSum (x : List ℝ) {rs : List (ℕ × ℕ)} {b e : ℕ}
    (h : tilesB rs b e = true) :
    (rs.map fun p => segSum x p.1 p.2).foldl (· + ·) 0 = segSum x b e := by
  induction rs generalizing b with
  | nil =>
    simp only [tilesB, beq_iff_eq] at h
    subst h
    simp [segSum]
  | cons p ps ih =>
    simp only [tilesB, Bool.and_eq_true, beq_iff_eq, decide_eq_true_eq] at h
    obtain ⟨⟨hb, hle⟩, ht⟩ := h
    subst hb
    simp only [List.map_cons, List.foldl_cons]
    rw [foldl_add_shift, ih ht, zero_add, segSum_split x hle (tilesB_le ht)]

/-- A reduce-tree run never changes the input view of the worker. -/
lemma reduceTree_input (s : Sum) (t : WorkTree) : (reduceTree s t).input = s.input := by
  induction t generalizing s with
  | leaf b e => rfl
  | node l r ihl ihr => simpa [reduceTree, Sum.join] using ihl s

/-- The accumulator of a reduce-tree run: the starting value plus the segment
sums of all leaf ranges. -/
lemma reduceTree_value (s : Sum) (t : WorkTree) :
    (reduceTree s t).value =
      s.value + (t.ranges.map fun p => segSum s.input p.1 p.2).foldl (· + ·) 0 := by
  induction t generalizing s with
  | leaf b e =>
    simp [reduceTree, Sum.run, WorkTree.ranges, foldl_add_shift]
  | node l r ihl ihr =>
    have hsplit : (s.split).input = s.input := rfl
    simp only [reduceTree, Sum.join, WorkTree.ranges, List.map_append,
      List.foldl_append]
    rw [ihl s, ihr s.split, hsplit]
    simp only [Sum.split]
    rw [foldl_add_shift (r.ranges.map fun p => segSum s.input p.1 p.2)
      ((l.ranges.map fun p => segSum s.input p.1 p.2).foldl (· + ·) 0)]
    ring

/-- Any tiled `parallelReduce` schedule yields exactly the serial accumulate. -/
lemma parallelVectorSum_eq_vectorSum (x : List ℝ) (t : WorkTree)
    (h : tilesB t.ranges 0 x.length = true) :
    parallelVectorSum x t = vectorSum x := by
  unfold parallelVectorSum vectorSum
  rw [reduceTree_value]
  simp only [Sum.init]
  rw [tilesB_segSum _ h]
  simp [segSum]

end VectorSum

section MVNLemmas

open Matrix

/-- Writing `body j` at every index of `l` into an accumulator: an index holds
`body` after the loop iff it occurs in `l`. -/
lemma foldl_update_apply {n : ℕ} (body : Fin n → ℝ) (l : List (Fin n))
    (acc : Fin n → ℝ) (i : Fin n) :
    l.foldl (fun a j => Function.update a j (body j)) acc i =
      if i ∈ l then body i else acc i := by
  induction l generalizing acc with
  | nil => simp
  | cons j t ih =>
    simp only [List.foldl_cons]
    rw [ih]
    by_cases hit : i ∈ t
    · simp [hit]
    · by_cases hij : i = j
      · subst hij
        simp [hit]
      · simp [hit, hij, Function.update_noteq hij]

/-- Chunked writes: an index holds `body` after all chunks ran iff some chunk
contains it. -/
lemma chunks_update_apply {n : ℕ} (body : Fin n → ℝ) (chunks : List (List (Fin n)))
    (acc : Fin n → ℝ) (i : Fin n) :
    chunks.foldl (fun a c => c.foldl (fun a j => Function.update a j (body j)) a) acc i =
      if ∃ c ∈ chunks, i ∈ c then body i else acc i := by
  induction chunks generalizing acc with
  | nil => simp
  | cons c t ih =>
    simp only [List.foldl_cons]
    rw [ih, foldl_update_apply]
    by_cases hit : ∃ d ∈ t, i ∈ d
    · simp [hit]
    · by_cases hic : i ∈ c
      · simp [hit, hic]
      · simp [hit, hic]

/-- The first component of the `_mc` evaluator agrees with the serial
evaluator whenever the schedule covers every row index. -/
lemma dmvnrm_arma_mc_fst {n k : ℕ} (x : Matrix (Fin n) (Fin k) ℝ) (mean : Fin k → ℝ)
    (sigma : Matrix (Fin k) (Fin k) ℝ) (logd : Bool) (cores : ℤ)
    (chunks : List (List (Fin n))) (out0 : Fin n → ℝ) (s : ℤ)
    (hcov : ∀ i : Fin n, ∃ c ∈ chunks, i ∈ c) :
    (dmvnrm_arma_mc x mean sigma logd cores chunks out0 s).1 =
      dmvnrm_arma x mean sigma logd := by
  unfold dmvnrm_arma_mc dmvnrm_arma
  cases harma : arma_chol sigma with
  | none => rfl
  | some R =>
    simp only [Option.map_some']
    have hout :
        (chunks.foldl
          (fun acc c => c.foldl (fun a i => Function.update a i (dmvnrm_body x mean R i)) acc)
          out0) = fun i => dmvnrm_body x mean R i := by
      funext i
      rw [chunks_update_apply]
      simp [hcov i]
    rw [hout]

end MVNLemmas

section FinOne

open Matrix

/-- A one-by-one matrix is determined by its single entry. -/
lemma matrix_fin_one_eq (U : Matrix (Fin 1) (Fin 1) ℝ) : U = ![![U 0 0]] := by
  ext i j
  fin_cases i
  fin_cases j
  simp

/-- A positive real `r` with `r * r = a` gives a Cholesky factor of `[[a]]`. -/
lemma isCholFactor_fin_one {a r : ℝ} (hr : 0 < r) (hra : r * r = a) :
    IsCholFactor ![![r]] ![![a]] := by
  refine ⟨?_, ?_, ?_⟩
  · ext i j
    fin_cases i
    fin_cases j
    simp [Matrix.mul_apply, Fin.sum_univ_one, hra.symm]
  · intro i j hlt
    exfalso
    fin_cases i
    fin_cases j
    exact lt_irrefl _ hlt
  · intro i
    fin_cases i
    simpa using hr

/-- Uniqueness of the one-by-one Cholesky factor. -/
lemma isCholFactor_fin_one_unique {a r : ℝ} (hr : 0 < r) (hra : r * r = a)
    {U : Matrix (Fin 1) (Fin 1) ℝ} (hU : IsCholFactor U ![![a]]) : U = ![![r]] := by
  obtain ⟨heq, -, hpos⟩ := hU
  have h00 : U 0 0 * U 0 0 = a := by
    have := congrArg (fun M => M 0 0) heq
    simpa [Matrix.mul_apply, Fin.sum_univ_one] using this.symm
  have hU00 : U 0 0 = r := by
    have hp := hpos 0
    have hfac : (U 0 0 - r) * (U 0 0 + r) = 0 := by nlinarith
    rcases mul_eq_zero.mp hfac with h | h
    · linarith
    · linarith
  rw [matrix_fin_one_eq U, hU00]

/-- `arma::chol` on a one-by-one positive matrix returns the square root. -/
lemma arma_chol_fin_one {a r : ℝ} (hr : 0 < r) (hra : r * r = a) :
    arma_chol ![![a]] = some ![![r]] := by
  unfold arma_chol
  have hex : ∃ U, IsCholFactor U ![![a]] := ⟨![![r]], isCholFactor_fin_one hr hra⟩
  rw [dif_pos hex]
  exact congrArg some (isCholFactor_fin_one_unique hr hra hex.choose_spec)

/-- Inverse of a one-by-one matrix with nonzero entry. -/
lemma inv_fin_one {r : ℝ} (hr : r ≠ 0) {U : Matrix (Fin 1) (Fin 1) ℝ}
    (hU : U = ![![r]]) : U⁻¹ = ![![r⁻¹]] := by
  apply Matrix.inv_eq_right_inv
  subst hU
  ext i j
  fin_cases i
  fin_cases j
  simp [Matrix.mul_apply, Fin.sum_univ_one, mul_inv_cancel₀ hr, Matrix.one_apply]

/-- The row body of `dmvnrm_arma` in dimension one, with Cholesky factor `[[r]]`. -/
lemma dmvnrm_body_fin_one (x0 m r : ℝ) (hr : 0 < r) (i : Fin 1) :
    dmvnrm_body ![![x0]] ![m] ![![r]] i =
      dmvnrm_constants 1 - 0.5 * ((r⁻¹ * (x0 - m)) * (r⁻¹ * (x0 - m))) + Real.log r⁻¹ := by
  unfold dmvnrm_body
  rw [inv_fin_one hr.ne' rfl]
  fin_cases i
  simp [Matrix.mulVec, Matrix.dotProduct, Fin.sum_univ_one, Matrix.transpose_apply]

end FinOne

section FinOneEval

open Matrix

/-- Full evaluation of `dmvnrm_arma` on a one-dimensional input with
covariance `[[a]]`, `a = r * r`, `r > 0`. -/
lemma dmvnrm_arma_fin_one (a r x0 m : ℝ) (hr : 0 < r) (hra : r * r = a) (logd : Bool) :
    dmvnrm_arma ![![x0]] ![m] ![![a]] logd =
      some (fun _ =>
        if logd = false
        then Real.exp (dmvnrm_constants 1 - 0.5 * ((r⁻¹ * (x0 - m)) * (r⁻¹ * (x0 - m))) +
          Real.log r⁻¹)
        else dmvnrm_constants 1 - 0.5 * ((r⁻¹ * (x0 - m)) * (r⁻¹ * (x0 - m))) +
          Real.log r⁻¹) := by
  unfold dmvnrm_arma
  rw [arma_chol_fin_one hr hra]
  simp only [Option.map_some']
  congr 1
  cases logd with
  | false =>
    funext i
    simp [dmvnrm_body_fin_one x0 m r hr i]
  | true =>
    funext i
    simp [dmvnrm_body_fin_one x0 m r hr i]

/-- The integer-division constant vanishes in dimension one. -/
lemma dmvnrm_constants_one : dmvnrm_constants 1 = 0 := by
  norm_num [dmvnrm_constants]

/-- The log of `2 * pi` exceeds one. -/
lemma one_lt_log_two_pi : (1 : ℝ) < Real.log (2 * Real.pi) := by
  have h2pi : (0 : ℝ) < 2 * Real.pi := by positivity
  refine (Real.lt_log_iff_exp_lt h2pi).mpr ?_
  nlinarith [Real.exp_one_lt_d9, Real.pi_gt_three]

/-- Evaluation of `dmvnrm_arma` at the standard normal point in dimension one:
the returned log-density is exactly `0`. -/
lemma dmvnrm_arma_std_one_zero :
    dmvnrm_arma ![![(0:ℝ)]] ![0] ![![1]] true = some (fun _ => 0) := by
  rw [dmvnrm_arma_fin_one 1 1 0 0 one_pos (by norm_num) true]
  norm_num [dmvnrm_constants_one]

end FinOneEval

section PosDefLemmas

open Matrix

/-- A matrix admitting a Cholesky factorization is positive definite. -/
lemma isCholFactor_posDef {k : ℕ} {U S : Matrix (Fin k) (Fin k) ℝ}
    (h : IsCholFactor U S) : IsPosDef S := by
  obtain ⟨hS, htri, hdiag⟩ := h
  subst hS
  constructor
  · simp [Matrix.IsSymm, Matrix.transpose_mul]
  · intro v hv
    have hquad : v ⬝ᵥ ((Uᵀ * U) *ᵥ v) = (U *ᵥ v) ⬝ᵥ (U *ᵥ v) := by
      rw [← Matrix.mulVec_mulVec, Matrix.dotProduct_mulVec, Matrix.vecMul_transpose]
    rw [hquad]
    have hUv : U *ᵥ v ≠ 0 := by
      intro h0
      apply hv
      have hdet : U.det = ∏ i, U i i := Matrix.det_of_upperTriangular htri
      have hdetpos : 0 < U.det := by
        rw [hdet]
        exact Finset.prod_pos fun i _ => hdiag i
      have hunit : IsUnit U.det := isUnit_iff_ne_zero.mpr hdetpos.ne'
      calc v = (U⁻¹ * U) *ᵥ v := by rw [Matrix.nonsing_inv_mul U hunit, Matrix.one_mulVec]
        _ = U⁻¹ *ᵥ (U *ᵥ v) := (Matrix.mulVec_mulVec v U⁻¹ U).symm
        _ = 0 := by rw [h0, Matrix.mulVec_zero]
    have hnn : 0 ≤ (U *ᵥ v) ⬝ᵥ (U *ᵥ v) := by
      unfold Matrix.dotProduct
      exact Finset.sum_nonneg fun j _ => mul_self_nonneg _
    refine hnn.lt_of_ne fun heq => hUv ?_
    exact Matrix.dotProduct_self_eq_zero.mp heq.symm

end PosDefLemmas

section ClaimTheorems

open Matrix

/-- C1: the claim says the log-normalization constant uses the real half of
`k·log(2π)` for every `k`, odd included.  The code computes the dimension
term with C++ integer division (`-(xdim/2) * log(2*M_PI)` with `int xdim`),
so at the odd dimension `k = 1` the constant term is `0`, while the claimed
term `-(1/2)·log(2π)` is below `-1/2`; the full evaluator output at the
standard-normal point (whose whitening part and `rootisum` both vanish)
is therefore `0` instead of the claimed value. -/
theorem dmvnrm_lognorm_integer_division_bug :
    dmvnrm_constants 1 = 0 ∧
    -((1:ℝ)/2) * Real.log (2 * Real.pi) < -(1/2 : ℝ) ∧
    dmvnrm_arma ![![(0:ℝ)]] ![0] ![![1]] true = some (fun _ => 0) := by
  refine ⟨dmvnrm_constants_one, ?_, dmvnrm_arma_std_one_zero⟩
  have h := one_lt_log_two_pi
  linarith

/-- C2: the claim says the evaluator returns the density of `N(0,4)` at `2`,
namely `(1/(2·√(2π)))·exp(-1/2)`.  The code actually returns
`√(2π)` times that value (the factor `1/√(2π)` is dropped by the integer
division `xdim/2` at `k = 1`), and `√(2π) > 2`, so the code value is more
than double the claimed positive value — far outside floating-point
tolerance. -/
theorem dmvnrm_scenario_n04_bug :
    (2:ℝ) < Real.sqrt (2 * Real.pi) ∧
    0 < 1 / (2 * Real.sqrt (2 * Real.pi)) * Real.exp (-(1/2) : ℝ) ∧
    dmvnrm_arma ![![(2:ℝ)]] ![0] ![![4]] false =
      some (fun _ =>
        Real.sqrt (2 * Real.pi) *
          (1 / (2 * Real.sqrt (2 * Real.pi)) * Real.exp (-(1/2) : ℝ))) := by
  have hpi : (3:ℝ) < Real.pi := Real.pi_gt_three
  have hsq : (2:ℝ) < Real.sqrt (2 * Real.pi) := by
    refine (Real.lt_sqrt (by norm_num : (0:ℝ) ≤ 2)).mpr ?_
    nlinarith
  have hsqpos : (0:ℝ) < Real.sqrt (2 * Real.pi) := by linarith
  refine ⟨hsq, by positivity, ?_⟩
  rw [dmvnrm_arma_fin_one 4 2 2 0 (by norm_num) (by norm_num) false]
  congr 1
  funext i
  simp only [if_pos rfl]
  rw [dmvnrm_constants_one]
  have hlog : Real.exp (Real.log (2:ℝ)⁻¹) = 2⁻¹ := Real.exp_log (by norm_num)
  rw [show (0:ℝ) - 0.5 * ((2:ℝ)⁻¹ * (2 - 0) * ((2:ℝ)⁻¹ * (2 - 0))) + Real.log (2:ℝ)⁻¹ =
    (-(1/2) : ℝ) + Real.log (2:ℝ)⁻¹ by norm_num]
  rw [Real.exp_add, hlog]
  field_simp
  ring

/-- Evaluation of the Mahalanobis form at the one-dimensional standard-normal
point: the log-density is `-(log(2π)/2)`. -/
lemma dmvnorm_arma_std_one :
    dmvnorm_arma ![![(0:ℝ)]] ![0] ![![1]] ![1] true 0 = -(Real.log (2 * Real.pi) / 2) := by
  unfold dmvnorm_arma Mahalanobis
  simp [Fin.sum_univ_one]

/-- The one-by-one identity matrix diagonalizes trivially, so `![1]` is a
valid `eig_sym` output for covariance `[[1]]`. -/
lemma isEigSym_one : IsEigSym ![(1:ℝ)] ![![(1:ℝ)]] := by
  refine ⟨1, by simp, ?_⟩
  rw [Matrix.transpose_one, mul_one, one_mul]
  ext i j
  fin_cases i
  fin_cases j
  simp

/-- C3: the claim says the whitening-factor form (`dmvnrm_arma`) and the
Mahalanobis-inverse form (`dmvnorm_arma`) agree within relative tolerance
1e-8 for every dimension, odd or even.  At the odd dimension `k = 1`
(covariance `[[1]]`, mean `[0]`, row `[0]`, with `eig_sym` output `[1]`)
the whitening form returns log-density `0` while the Mahalanobis form
returns `-(log(2π)/2) < -1/2`: they differ by more than `1/2` because the
whitening form drops `-(1/2)·log(2π)` through integer division. -/
theorem dmvnrm_dmvnorm_forms_disagree_odd_k :
    IsEigSym ![(1:ℝ)] ![![(1:ℝ)]] ∧
    dmvnrm_arma ![![(0:ℝ)]] ![0] ![![1]] true = some (fun _ => 0) ∧
    dmvnorm_arma ![![(0:ℝ)]] ![0] ![![1]] ![1] true 0 = -(Real.log (2 * Real.pi) / 2) ∧
    -(Real.log (2 * Real.pi) / 2) < -(1/2 : ℝ) := by
  refine ⟨isEigSym_one, dmvnrm_arma_std_one_zero, dmvnorm_arma_std_one, ?_⟩
  have h := one_lt_log_two_pi
  linarith

end ClaimTheorems

section ClaimTheorems2

open Matrix

/-- C4: for any worker count `W ≥ 1`, any chunk schedule covering every row
(any partitioning policy), any initial contents of the output vector, and any
prior thread-count state, the parallel evaluator returns exactly the serial
evaluator's result (errors included). -/
theorem dmvnrm_arma_mc_matches_serial {n k : ℕ} (x : Matrix (Fin n) (Fin k) ℝ)
    (mean : Fin k → ℝ) (sigma : Matrix (Fin k) (Fin k) ℝ) (logd : Bool)
    (cores : ℤ) (hW : 1 ≤ cores) (chunks : List (List (Fin n))) (out0 : Fin n → ℝ)
    (s : ℤ) (hcov : ∀ i : Fin n, ∃ c ∈ chunks, i ∈ c) :
    (dmvnrm_arma_mc x mean sigma logd cores chunks out0 s).1 =
      dmvnrm_arma x mean sigma logd :=
  dmvnrm_arma_mc_fst x mean sigma logd cores chunks out0 s hcov

/-- Witness for C4: a concrete two-row instance with two workers and the
chunks scheduled out of order. -/
theorem dmvnrm_arma_mc_matches_serial_witness :
    (dmvnrm_arma_mc ![![(0:ℝ)], ![1]] ![0] ![![(1:ℝ)]] true 2 [[1], [0]] 0 5).1 =
      dmvnrm_arma ![![(0:ℝ)], ![1]] ![0] ![![(1:ℝ)]] true :=
  dmvnrm_arma_mc_matches_serial ![![(0:ℝ)], ![1]] ![0] ![![(1:ℝ)]] true 2
    (by norm_num) [[1], [0]] 0 5 (by decide)

/-- C5: exponentiating the log-scale result elementwise gives exactly the
natural-scale result, and the exponential is applied to the already-finalized
log vector as a final pass (the definition exponentiates the finished `out`). -/
theorem dmvnrm_arma_log_consistency {n k : ℕ} (x : Matrix (Fin n) (Fin k) ℝ)
    (mean : Fin k → ℝ) (sigma : Matrix (Fin k) (Fin k) ℝ) :
    dmvnrm_arma x mean sigma false =
      (dmvnrm_arma x mean sigma true).map fun f => fun i => Real.exp (f i) := by
  unfold dmvnrm_arma
  cases arma_chol sigma with
  | none => rfl
  | some R => rfl

/-- C6: on any covariance matrix that is not positive definite the evaluator
fails with the propagated factorization error and produces no (partial)
result vector. -/
theorem dmvnrm_arma_not_posdef_errors {n k : ℕ} (x : Matrix (Fin n) (Fin k) ℝ)
    (mean : Fin k → ℝ) (sigma : Matrix (Fin k) (Fin k) ℝ) (logd : Bool)
    (h : ¬ IsPosDef sigma) :
    dmvnrm_arma x mean sigma logd = none := by
  unfold dmvnrm_arma arma_chol
  have hno : ¬ ∃ U, IsCholFactor U sigma := fun ⟨_, hU⟩ => h (isCholFactor_posDef hU)
  rw [dif_neg hno]
  rfl

/-- Witness for C6: the spec's example `[[1, 2], [2, 1]]` is not positive
definite (the vector `(1, -1)` gives quadratic form `-2`), so the evaluator
returns no result on it. -/
theorem dmvnrm_arma_not_posdef_errors_witness :
    dmvnrm_arma ![![(0:ℝ), 0]] ![0, 0] ![![(1:ℝ), 2], ![2, 1]] true = none := by
  refine dmvnrm_arma_not_posdef_errors _ _ _ _ ?_
  rintro ⟨-, hq⟩
  have hv : (![1, -1] : Fin 2 → ℝ) ≠ 0 := by
    intro h0
    have := congrFun h0 0
    norm_num at this
  have := hq ![1, -1] hv
  simp [Matrix.mulVec, Matrix.dotProduct, Fin.sum_univ_two] at this

/-- C7 counterexample: a call to the parallel evaluator entered with
process-wide thread-count setting `1` and `cores = 4` exits with the global
setting changed to `4`: the write to the environment-owned concurrency
setting is visible outside the call. -/
theorem dmvnrm_arma_mc_writes_global :
    (dmvnrm_arma_mc ![![(0:ℝ)]] ![0] ![![(1:ℝ)]] true 4 [[0]] 0 1).2 = 4 ∧
      (4 : ℤ) ≠ 1 := by
  exact ⟨rfl, by decide⟩

/-- C7 amended: the call always overwrites the process-wide thread-count
setting with its `cores` argument (a side effect visible after the call), but
its returned result vector does not depend on the thread-count left by any
previous invocation. -/
theorem dmvnrm_arma_mc_thread_state {n k : ℕ} (x : Matrix (Fin n) (Fin k) ℝ)
    (mean : Fin k → ℝ) (sigma : Matrix (Fin k) (Fin k) ℝ) (logd : Bool)
    (cores : ℤ) (chunks : List (List (Fin n))) (out0 : Fin n → ℝ) (s s' : ℤ) :
    (dmvnrm_arma_mc x mean sigma logd cores chunks out0 s).1 =
        (dmvnrm_arma_mc x mean sigma logd cores chunks out0 s').1 ∧
      (dmvnrm_arma_mc x mean sigma logd cores chunks out0 s).2 = cores :=
  ⟨rfl, rfl⟩

/-- C8 counterexample: called with `cores = 0 < 1`, the parallel evaluator
does not raise any error: it still returns a result vector. -/
theorem dmvnrm_arma_mc_cores_zero_returns :
    (dmvnrm_arma_mc ![![(0:ℝ)]] ![0] ![![(1:ℝ)]] true 0 [[0]] 0 7).1 ≠ none := by
  rw [dmvnrm_arma_mc_fst ![![(0:ℝ)]] ![0] ![![(1:ℝ)]] true 0 [[0]] 0 7 (by decide)]
  rw [dmvnrm_arma_std_one_zero]
  exact Option.some_ne_none _

/-- C8 amended: for any `cores < 1` the parallel evaluator performs no
validation and no error is raised; given any covering schedule it computes and
returns exactly the serial evaluator's result. -/
theorem dmvnrm_arma_mc_no_cores_validation {n k : ℕ} (x : Matrix (Fin n) (Fin k) ℝ)
    (mean : Fin k → ℝ) (sigma : Matrix (Fin k) (Fin k) ℝ) (logd : Bool)
    (cores : ℤ) (hW : cores < 1) (chunks : List (List (Fin n))) (out0 : Fin n → ℝ)
    (s : ℤ) (hcov : ∀ i : Fin n, ∃ c ∈ chunks, i ∈ c) :
    (dmvnrm_arma_mc x mean sigma logd cores chunks out0 s).1 =
      dmvnrm_arma x mean sigma logd :=
  dmvnrm_arma_mc_fst x mean sigma logd cores chunks out0 s hcov

/-- Witness for the amended C8: worker count `0` on a concrete input. -/
theorem dmvnrm_arma_mc_no_cores_validation_witness :
    (dmvnrm_arma_mc ![![(0:ℝ)]] ![0] ![![(1:ℝ)]] false 0 [[0]] 0 7).1 =
      dmvnrm_arma ![![(0:ℝ)]] ![0] ![![(1:ℝ)]] false :=
  dmvnrm_arma_mc_no_cores_validation ![![(0:ℝ)]] ![0] ![![(1:ℝ)]] false 0
    (by norm_num) [[0]] 0 7 (by decide)

end ClaimTheorems2

section ClaimTheorems3

/-- C9: for every `parallelReduce` execution whose leaf ranges tile `[0, 8)`
(any split granularity, any number of workers including 4), the parallel sum
of `[1, 2, 3, 4, 5, 6, 7, 8]` is exactly `36`, which is also exactly the
sequential left-to-right sum. -/
theorem parallel_sum_scenario (t : VectorSum.WorkTree)
    (h : VectorSum.tilesB t.ranges 0 8 = true) :
    VectorSum.parallelVectorSum [1, 2, 3, 4, 5, 6, 7, 8] t = 36 ∧
      VectorSum.vectorSum [1, 2, 3, 4, 5, 6, 7, 8] = 36 := by
  have hlen : ([(1:ℝ), 2, 3, 4, 5, 6, 7, 8] : List ℝ).length = 8 := by
    simp
  have hv : VectorSum.vectorSum [(1:ℝ), 2, 3, 4, 5, 6, 7, 8] = 36 := by
    norm_num [VectorSum.vectorSum]
  refine ⟨?_, hv⟩
  rw [VectorSum.parallelVectorSum_eq_vectorSum _ t (by rw [hlen]; exact h)]
  exact hv

/-- Witness for C9: the four-worker split into chunks of two. -/
theorem parallel_sum_scenario_witness :
    VectorSum.parallelVectorSum [1, 2, 3, 4, 5, 6, 7, 8]
        (.node (.node (.leaf 0 2) (.leaf 2 4)) (.node (.leaf 4 6) (.leaf 6 8))) = 36 :=
  (parallel_sum_scenario
    (.node (.node (.leaf 0 2) (.leaf 2 4)) (.node (.leaf 4 6) (.leaf 6 8)))
    (by decide)).1

/-- C10: the `Sum` worker lifecycle invariant.  A standard- or
split-constructed instance has accumulator `0`; `operator()` over `[b, e)`
adds exactly the sum of the input elements of that range; `join` adds the
other instance's accumulator; and for any split tree whose leaf ranges tile
`[0, n)` the root value returned by `parallelVectorSum` (the only observable
output) is exactly the sum of all input elements, i.e. the serial
`vectorSum`. -/
theorem sum_worker_lifecycle (x : List ℝ) (s r : VectorSum.Sum) (b e : ℕ)
    (t : VectorSum.WorkTree) (h : VectorSum.tilesB t.ranges 0 x.length = true) :
    (VectorSum.Sum.init x).value = 0 ∧
    s.split.value = 0 ∧
    (s.run b e).value = s.value + VectorSum.segSum s.input b e ∧
    (s.join r).value = s.value + r.value ∧
    VectorSum.parallelVectorSum x t = VectorSum.vectorSum x :=
  ⟨rfl, rfl, rfl, rfl, VectorSum.parallelVectorSum_eq_vectorSum x t h⟩

/-- Witness for C10: a concrete instantiation of the lifecycle invariant. -/
theorem sum_worker_lifecycle_witness :
    (VectorSum.Sum.init [(1:ℝ), 2]).value = 0 ∧
    (VectorSum.Sum.split ⟨[(5:ℝ)], 3⟩).value = 0 ∧
    (VectorSum.Sum.run ⟨[(5:ℝ)], 3⟩ 0 1).value =
      (3:ℝ) + VectorSum.segSum [(5:ℝ)] 0 1 ∧
    (VectorSum.Sum.join ⟨[(5:ℝ)], 3⟩ ⟨[], 4⟩).value = (3:ℝ) + 4 ∧
    VectorSum.parallelVectorSum [(1:ℝ), 2] (.leaf 0 2) =
      VectorSum.vectorSum [(1:ℝ), 2] :=
  sum_worker_lifecycle [(1:ℝ), 2] ⟨[(5:ℝ)], 3⟩ ⟨[], 4⟩ 0 1 (.leaf 0 2) (by decide)

end ClaimTheorems3
